import Mathlib

/-!
Verification development for the Extended-Trading-Bot batch scheduling and
execution engine.  The definitions below are shallow embeddings of the
Python sources:

* `modules/core/account_pool.py`      — account availability state machine
* `modules/core/batch_trader.py`      — notional distribution and close retry
* `modules/core/batch_orchestrator.py`— generator tick and worker task handling
* `modules/helpers/orderbook_cache.py`— price cache

Machine time (`time.time()`) is passed explicitly as a rational `now`;
`random.sample` / `random.uniform` outcomes are passed as explicit
`choose` / `vars` parameters so that every theorem quantifies over all
possible draws.
-/

namespace TradingBot

/-- Account state strings used by `account_pool.py`
('available', 'in_trade', 'cooldown', 'disabled'). -/
inductive AccState where
  | available
  | in_trade
  | cooldown
  | disabled
deriving DecidableEq, Repr

/-- `AccountStatus` dataclass of `account_pool.py` (the `account_id` field is
kept as the association-list key instead of being duplicated here). -/
structure AccountStatus where
  status : AccState
  release_time : Option ℚ := none
  trades_count : Nat := 0
  last_trade_time : Option ℚ := none
deriving DecidableEq, Repr

/-- `AccountPool`: cooldown default plus the `statuses` dict, modelled as an
insertion-ordered association list (Python dicts preserve insertion order). -/
structure AccountPool where
  cooldown_seconds : ℚ
  statuses : List (String × AccountStatus)
deriving DecidableEq, Repr

/-- First-match lookup in an association list (Python dict access). -/
def listLookup (l : List (String × AccountStatus)) (x : String) : Option AccountStatus :=
  match l with
  | [] => none
  | e :: t => if e.1 = x then some e.2 else listLookup t x

/-- Apply a per-entry update to every status, keeping keys: the shape of every
`for acc_id, status in self.statuses.items()` mutation loop in the source. -/
def mapStatuses (step : String → AccountStatus → AccountStatus) (p : AccountPool) :
    AccountPool :=
  { p with statuses := p.statuses.map (fun e => (e.1, step e.1 e.2)) }

/-- One account's lazy cooldown-expiry check
(`if status.status == 'cooldown' and status.release_time:` — note Python
truthiness: a `release_time` of `0.0` is falsy and is skipped —
`if now >= status.release_time:` → back to `available`). -/
def tickStatus (now : ℚ) (s : AccountStatus) : AccountStatus :=
  if s.status = .cooldown then
    match s.release_time with
    | none => s
    | some rt =>
        if rt ≠ 0 then
          if rt ≤ now then { s with status := .available, release_time := none } else s
        else s
  else s

/-- `AccountPool._update_cooldowns`. -/
def update_cooldowns (now : ℚ) (p : AccountPool) : AccountPool :=
  mapStatuses (fun _ s => tickStatus now s) p

/-- The `available` list computed inside `get_random_batch`. -/
def availableIds (p : AccountPool) : List String :=
  (p.statuses.filter (fun e => decide (e.2.status = .available))).map (·.1)

/-- Python `min_size = min_size or size`: `None` **and `0`** both default to
`size` (`0` is falsy). -/
def eff_min_size (size : Nat) : Option Nat → Nat
  | none => size
  | some 0 => size
  | some m => m

/-- The marking loop of `get_random_batch`: every selected account becomes
`in_trade` with its last-trade time stamped. -/
def markBatch (now : ℚ) (batch : List String) (p : AccountPool) : AccountPool :=
  mapStatuses
    (fun id s =>
      if id ∈ batch then { s with status := .in_trade, last_trade_time := some now } else s) p

/-- `AccountPool.get_random_batch`.  `choose avail k` stands for
`random.sample(avail, k)`; its sample properties are hypotheses of the
theorems below. -/
def get_random_batch (choose : List String → Nat → List String) (now : ℚ)
    (p : AccountPool) (size : Nat) (min_size : Option Nat) :
    Option (List String) × AccountPool :=
  let p1 := update_cooldowns now p
  let available := availableIds p1
  let minSz := eff_min_size size min_size
  if available.length < minSz then (none, p1)
  else
    let batch := choose available (min size available.length)
    (some batch, markBatch now batch p1)

/-- `AccountPool.release_batch` (unknown ids are skipped; the transition is
applied to every listed account regardless of its current state). -/
def release_batch (now : ℚ) (p : AccountPool) (ids : List String)
    (cooldown_override : Option ℚ) : AccountPool :=
  let cooldown := cooldown_override.getD p.cooldown_seconds
  let rt := now + cooldown
  mapStatuses
    (fun id s =>
      if id ∈ ids then
        { s with status := .cooldown, release_time := some rt,
                 trades_count := s.trades_count + 1 }
      else s) p

/-- `AccountPool.release_immediately`. -/
def release_immediately (p : AccountPool) (ids : List String) : AccountPool :=
  mapStatuses
    (fun id s =>
      if id ∈ ids then { s with status := .available, release_time := none } else s) p

/-- `AccountPool.disable_account` (only the state changes). -/
def disable_account (p : AccountPool) (account_id : String) : AccountPool :=
  mapStatuses (fun id s => if id = account_id then { s with status := .disabled } else s) p

/-- `AccountPool.enable_account`. -/
def enable_account (p : AccountPool) (account_id : String) : AccountPool :=
  mapStatuses
    (fun id s =>
      if id = account_id then { s with status := .available, release_time := none } else s) p

/-- The `available` entry list of the balanced selection path. -/
def balancedAvailable (now : ℚ) (p : AccountPool) : List (String × AccountStatus) :=
  (update_cooldowns now p).statuses.filter (fun e => decide (e.2.status = .available))

/-- `sorted_accounts = sorted(available, key=lambda x: x[1].trades_count)`
(Python's sort is stable; insertion sort is the stable model). -/
def balancedSorted (now : ℚ) (p : AccountPool) : List (String × AccountStatus) :=
  List.insertionSort (fun a b => a.2.trades_count ≤ b.2.trades_count)
    (balancedAvailable now p)

/-- `candidates = sorted_accounts[:batch_size * 2] if len(sorted_accounts) >
batch_size else sorted_accounts` with `batch_size = min(size, len(sorted))`. -/
def balancedCandidates (now : ℚ) (p : AccountPool) (size : Nat) :
    List (String × AccountStatus) :=
  if min size (balancedSorted now p).length < (balancedSorted now p).length then
    (balancedSorted now p).take (min size (balancedSorted now p).length * 2)
  else balancedSorted now p

/-- `batch = random.sample([acc_id for acc_id, _ in candidates],
min(batch_size, len(candidates)))`. -/
def balancedBatch (choose : List String → Nat → List String) (now : ℚ)
    (p : AccountPool) (size : Nat) : List String :=
  choose ((balancedCandidates now p size).map (·.1))
    (min (min size (balancedSorted now p).length) (balancedCandidates now p size).length)

/-- `BalancedAccountPool.get_random_batch`: with `balanced=False` it defers to
the base implementation; otherwise the available accounts are sorted by
ascending trade count, a `2×batch_size` candidate window is taken, and the
batch is sampled from that window. -/
def get_random_batch_balanced (choose : List String → Nat → List String) (now : ℚ)
    (p : AccountPool) (size : Nat) (min_size : Option Nat) (balanced : Bool) :
    Option (List String) × AccountPool :=
  match balanced with
  | false => get_random_batch choose now p size min_size
  | true =>
      if (balancedAvailable now p).length < eff_min_size size min_size then
        (none, update_cooldowns now p)
      else
        (some (balancedBatch choose now p size),
          markBatch now (balancedBatch choose now p size) (update_cooldowns now p))

/-- Pool operations that concurrent components may interleave between two
batch selections. -/
inductive PoolOp where
  | select (choose : List String → Nat → List String) (now : ℚ) (size : Nat)
      (min_size : Option Nat) (balanced : Bool)
  | release (now : ℚ) (ids : List String) (cd : Option ℚ)
  | releaseImm (ids : List String)
  | disable (id : String)
  | enable (id : String)
  | tick (now : ℚ)

/-- State effect of one pool operation. -/
def applyOp (p : AccountPool) : PoolOp → AccountPool
  | .select choose now size min_size balanced =>
      (get_random_batch_balanced choose now p size min_size balanced).2
  | .release now ids cd => release_batch now p ids cd
  | .releaseImm ids => release_immediately p ids
  | .disable id => disable_account p id
  | .enable id => enable_account p id
  | .tick now => update_cooldowns now p

def applyOps (p : AccountPool) (ops : List PoolOp) : AccountPool :=
  ops.foldl applyOp p

/-- Does the operation free account `x` back to circulation
(`release_batch`, `release_immediately`, or `enable_account`)? -/
def op_frees (op : PoolOp) (x : String) : Bool :=
  match op with
  | .release _ ids _ => decide (x ∈ ids)
  | .releaseImm ids => decide (x ∈ ids)
  | .enable id => decide (id = x)
  | _ => false

/-- Is the operation one of the two release operations named by the
mutual-exclusion claim? -/
def op_is_release (op : PoolOp) : Bool :=
  match op with
  | .release _ _ _ => true
  | .releaseImm _ => true
  | _ => false

/-- Sample-subset property of `random.sample`: every drawn element comes from
the input list. -/
def SampleSub (choose : List String → Nat → List String) : Prop :=
  ∀ l k x, x ∈ choose l k → x ∈ l

/-- Full behaviour of `random.sample`: the draw is a duplicate-free selection
of exactly `min k (length l)` elements of `l` (the source always calls it
with `k ≤ length l`, so `min` is exact there). -/
def SampleSpec (choose : List String → Nat → List String) : Prop :=
  ∀ l k, (∀ x ∈ choose l k, x ∈ l) ∧ (choose l k).length = min k l.length ∧
    (l.Nodup → (choose l k).Nodup)

/-- A deterministic sampler used by the concrete witnesses. -/
def sampleTake (l : List String) (k : Nat) : List String := l.take k

theorem sampleSpec_take : SampleSpec sampleTake := by
  intro l k
  refine ⟨fun x hx => List.take_subset k l hx, List.length_take k l, fun h => ?_⟩
  exact h.sublist (List.take_sublist k l)

theorem sampleSub_take : SampleSub sampleTake := by
  intro l k x hx
  exact List.take_subset k l hx

/-- The pool's keys are distinct (true for every pool the source builds: keys
come from a Python dict). -/
def NodupKeys (p : AccountPool) : Prop := (p.statuses.map Prod.fst).Nodup

/-- Release timestamps stored in the pool are strictly positive
(wall-clock times: the source only ever stores `time.time() + cooldown`). -/
def posRT : Option ℚ → Bool
  | none => true
  | some rt => decide (0 < rt)

def PosReleaseTimes (p : AccountPool) : Prop :=
  ∀ e ∈ p.statuses, posRT e.2.release_time = true

instance (p : AccountPool) : Decidable (NodupKeys p) := by
  unfold NodupKeys
  infer_instance

instance (p : AccountPool) : Decidable (PosReleaseTimes p) := by
  unfold PosReleaseTimes
  exact List.decidableBAll _ _

/-! ## `batch_trader.distribute_amount_randomly` and the hedge split -/

/-- `distribute_amount_randomly` from `batch_trader.py`.  `vars i` stands for
the i-th draw of `random.uniform(-max_var, max_var)`; the weight floor
`max(0.3, 1.0 + variation)` and the final-share adjustment
`amounts[-1] = total - sum(amounts[:-1])` are translated literally. -/
def distribute_amount_randomly (total : ℚ) (num_parts : Nat) (vars : Nat → ℚ) : List ℚ :=
  if num_parts = 1 then [total]
  else
    let weights := (List.range num_parts).map (fun i => max (3/10 : ℚ) (1 + vars i))
    let total_weight := weights.sum
    let normalized_weights := weights.map (fun w => w / total_weight)
    let amounts := normalized_weights.map (fun w => total * w)
    amounts.dropLast ++ [total - amounts.dropLast.sum]

/-- The notional split of `BatchTrader._open_positions`:
`long_total_usd = total / 2`, `short_total_usd = total / 2`. -/
def open_positions_split (total_batch_size_usd : ℚ) : ℚ × ℚ :=
  (total_batch_size_usd / 2, total_batch_size_usd / 2)

/-! ## `batch_orchestrator.BatchGenerator._generate_batch` -/

/-- Parameters of one generator tick: the sample oracle, wall clock, drawn
batch size, minimum size, and which pool variant is installed. -/
structure GenTick where
  choose : List String → Nat → List String
  now : ℚ
  size : Nat
  min_size : Option Nat
  balanced : Bool

/-- One `_generate_batch` tick acting on (queue depth, pool): if the queue is
at capacity the tick is skipped outright; otherwise a batch is requested and a
task is enqueued exactly when the pool returned one. -/
def generate_batch (max_queue_size : Nat) (st : Nat × AccountPool) (t : GenTick) :
    Nat × AccountPool :=
  if max_queue_size ≤ st.1 then st
  else
    match get_random_batch_balanced t.choose t.now st.2 t.size t.min_size t.balanced with
    | (none, p1) => (st.1, p1)
    | (some _, p1) => (st.1 + 1, p1)

/-! ## `BatchTrader._close_position_with_limit_retry` -/

/-- Oracle for the exchange client's responses during the close sequence,
indexed by attempt number (`max_retries` is the index of the fallback's own
position check). -/
structure CloseClient where
  posAlreadyGone : Nat → Bool
  priceOK : Nat → Bool
  limitCloseOK : Nat → Bool
  marketOK : Bool

/-- Outcome of the close sequence: did it report success, how many times the
market-order fallback was placed, and whether the remaining orders were
cancelled after the successful close. -/
structure CloseResult where
  success : Bool
  marketCalls : Nat
  finalCancel : Bool
deriving DecidableEq, Repr

/-- The `for attempt in range(max_retries)` loop: at each attempt the position
is re-checked (already closed → success, residual orders cancelled), prices
are fetched (failure → next attempt), a limit order is placed and awaited
(closed → success + cancel of leftovers, otherwise next attempt). -/
def closeLoop (c : CloseClient) : Nat → Nat → Option CloseResult
  | _, 0 => none
  | i, r + 1 =>
      if c.posAlreadyGone i then some ⟨true, 0, true⟩
      else if c.priceOK i = false then closeLoop c (i + 1) r
      else if c.limitCloseOK i then some ⟨true, 0, true⟩
      else closeLoop c (i + 1) r

/-- The post-loop fallback block: with `use_market_fallback` the position is
re-checked and otherwise closed by one market order; without it the function
reports failure. -/
def closeFallback (c : CloseClient) (max_retries : Nat) (use_market_fallback : Bool) :
    CloseResult :=
  if use_market_fallback then
    if c.posAlreadyGone max_retries then ⟨true, 0, true⟩
    else if c.marketOK then ⟨true, 1, true⟩
    else ⟨false, 1, false⟩
  else ⟨false, 0, false⟩

/-- `_close_position_with_limit_retry`. -/
def close_position_with_limit_retry (c : CloseClient) (max_retries : Nat)
    (use_market_fallback : Bool) : CloseResult :=
  match closeLoop c 0 max_retries with
  | some r => r
  | none => closeFallback c max_retries use_market_fallback

/-- A client whose limit-close attempts fail the first `n` times and succeed
afterwards (position present throughout, prices always available). -/
def failNClient (n : Nat) (marketOK : Bool) : CloseClient :=
  ⟨fun _ => false, fun _ => true, fun i => decide (n ≤ i), marketOK⟩

/-! ## `TradingWorker._process_task` / `_execute_trading` -/

/-- `BalancedAccountPool`: the base pool plus the consecutive-error counters. -/
structure BalancedPool where
  base : AccountPool
  max_consecutive_errors : Nat
  consecutive_errors : List (String × Nat)
deriving Repr

/-- First-match lookup in the error-counter association list. -/
def lookupNat (l : List (String × Nat)) (x : String) : Option Nat :=
  match l with
  | [] => none
  | e :: t => if e.1 = x then some e.2 else lookupNat t x

/-- `BalancedAccountPool.report_error`: unknown accounts are ignored; the
counter is incremented and, at the threshold, the account is disabled. -/
def report_error (bp : BalancedPool) (account_id : String) : BalancedPool :=
  match lookupNat bp.consecutive_errors account_id with
  | none => bp
  | some k =>
      let errs := bp.consecutive_errors.map
        (fun e => if e.1 = account_id then (e.1, k + 1) else e)
      if bp.max_consecutive_errors ≤ k + 1 then
        ⟨disable_account bp.base account_id, bp.max_consecutive_errors, errs⟩
      else ⟨bp.base, bp.max_consecutive_errors, errs⟩

/-- `BalancedAccountPool.report_success`: resets the counter of a known
account. -/
def report_success (bp : BalancedPool) (account_id : String) : BalancedPool :=
  match lookupNat bp.consecutive_errors account_id with
  | none => bp
  | some _ =>
      ⟨bp.base, bp.max_consecutive_errors,
        bp.consecutive_errors.map (fun e => if e.1 = account_id then (e.1, 0) else e)⟩

/-- How one run of `_execute_trading`'s body ends: normally; by an exception
raised before the inner `try` (e.g. no accounts resolved); by an exception
inside the inner `try`; or by a cancellation inside the inner `try`. -/
inductive ExecOutcome where
  | ok
  | preFail
  | tradeFail
  | cancelledDuring
deriving DecidableEq

inductive ExcKind where
  | exc
  | cancel
deriving DecidableEq

/-- `TradingWorker._execute_trading`: the inner `finally` releases the task's
accounts into cooldown on every path through the inner `try` (including
cancellation), while a pre-`try` failure leaves the pool untouched. -/
def execute_trading (p : AccountPool) (ids : List String) (cd now : ℚ) :
    ExecOutcome → AccountPool × Option ExcKind
  | .ok => (release_batch now p ids (some cd), none)
  | .preFail => (p, some .exc)
  | .tradeFail => (release_batch now p ids (some cd), some .exc)
  | .cancelledDuring => (release_batch now p ids (some cd), some .cancel)

/-- What `_process_task` hands back to the worker loop: a normally returned
`TaskResult` (success flag recorded) or a propagated cancellation. -/
inductive PTResult where
  | ret (success : Bool)
  | cancelledProp
deriving DecidableEq

/-- `TradingWorker._process_task`: cancellation → immediate release and
re-raise (no reports, `result` is still unset); any other exception →
immediate release, failed `TaskResult`, and — in the `finally`, when the pool
is balanced — an error report per account; success → success reports. -/
def process_task (bp : BalancedPool) (isBalanced : Bool) (ids : List String)
    (cd now : ℚ) (o : ExecOutcome) : BalancedPool × PTResult :=
  let r := execute_trading bp.base ids cd now o
  match r.2 with
  | none =>
      let bp1 : BalancedPool := ⟨r.1, bp.max_consecutive_errors, bp.consecutive_errors⟩
      (if isBalanced then ids.foldl report_success bp1 else bp1, .ret true)
  | some .cancel =>
      (⟨release_immediately r.1 ids, bp.max_consecutive_errors, bp.consecutive_errors⟩,
        .cancelledProp)
  | some .exc =>
      let bp1 : BalancedPool :=
        ⟨release_immediately r.1 ids, bp.max_consecutive_errors, bp.consecutive_errors⟩
      (if isBalanced then ids.foldl report_error bp1 else bp1, .ret false)

/-! ## `orderbook_cache.OrderBookCache` -/

/-- One cache entry of the order-book cache. -/
structure CacheEntry where
  bid : ℚ
  ask : ℚ
  timestamp : ℚ
  spread : ℚ
  spread_percent : ℚ
  mid_price : ℚ
deriving DecidableEq, Repr

/-- The singleton `_cache` dict, as an insertion-ordered association list. -/
abbrev OBCache := List (String × CacheEntry)

/-- First-match lookup in the cache. -/
def cacheLookup (c : OBCache) (k : String) : Option CacheEntry :=
  match c with
  | [] => none
  | e :: t => if e.1 = k then some e.2 else cacheLookup t k

/-- Python dict assignment `self._cache[key] = entry`: overwrite in place, or
append a new key. -/
def cacheInsert (c : OBCache) (k : String) (v : CacheEntry) : OBCache :=
  if c.any (fun e => decide (e.1 = k)) then
    c.map (fun e => if e.1 = k then (k, v) else e)
  else c ++ [(k, v)]

/-- Market-name normalisation of the read path: append `-USD` when no dash is
present, then uppercase. -/
def normalizeMarket (market : String) : String :=
  (if market.contains '-' then market else market ++ "-USD").toUpper

/-- `OrderBookCache.get_prices`: the cached pair is served exactly when the
normalised key is present and `now - timestamp ≤ max_age_seconds`; the cache
itself is returned untouched (the method only reads). -/
def get_prices (c : OBCache) (market : String) (max_age_seconds now : ℚ) :
    Option (ℚ × ℚ) × OBCache :=
  let key := normalizeMarket market
  match cacheLookup c key with
  | none => (none, c)
  | some e =>
      if max_age_seconds < now - e.timestamp then (none, c)
      else (some (e.bid, e.ask), c)

/-- `OrderBookCache.update_orderbook`.  Each order's `'p'` field is carried as
an `Option ℚ` (parse result of `Decimal(str(order['p']))`; `none` models the
`KeyError`/`ValueError` caught by the method).  An empty `bids` or `asks`
returns before touching the cache. -/
def update_orderbook (c : OBCache) (market : String)
    (bids asks : List (Option ℚ)) (now : ℚ) : OBCache :=
  if bids = [] ∨ asks = [] then c
  else
    match bids.head?.bind id, asks.head?.bind id with
    | some best_bid, some best_ask =>
        let spread := best_ask - best_bid
        let spread_percent := spread / best_bid * 100
        let mid_price := (best_bid + best_ask) / 2
        cacheInsert c market.toUpper
          ⟨best_bid, best_ask, now, spread, spread_percent, mid_price⟩
    | _, _ => c

/-! ## Basic lemmas about the pool operations -/

theorem listLookup_map (step : String → AccountStatus → AccountStatus)
    (l : List (String × AccountStatus)) (x : String) :
    listLookup (l.map (fun e => (e.1, step e.1 e.2))) x =
      (listLookup l x).map (step x) := by
  induction l with
  | nil => rfl
  | cons e t ih =>
      by_cases h : e.1 = x
      · simp [listLookup, h]
      · simp [listLookup, h, ih]

theorem listLookup_mapStatuses (step : String → AccountStatus → AccountStatus)
    (p : AccountPool) (x : String) :
    listLookup (mapStatuses step p).statuses x = (listLookup p.statuses x).map (step x) :=
  listLookup_map step p.statuses x

theorem keys_mapStatuses (step : String → AccountStatus → AccountStatus)
    (p : AccountPool) :
    (mapStatuses step p).statuses.map Prod.fst = p.statuses.map Prod.fst := by
  simp [mapStatuses]

theorem nodupKeys_mapStatuses (step : String → AccountStatus → AccountStatus)
    (p : AccountPool) (h : NodupKeys p) : NodupKeys (mapStatuses step p) := by
  unfold NodupKeys at h ⊢
  rwa [keys_mapStatuses]

theorem mem_mapStatuses {e : String × AccountStatus}
    (step : String → AccountStatus → AccountStatus) (p : AccountPool)
    (he : e ∈ (mapStatuses step p).statuses) :
    ∃ e0 ∈ p.statuses, e = (e0.1, step e0.1 e0.2) := by
  simp only [mapStatuses, List.mem_map] at he
  obtain ⟨e0, h0, h1⟩ := he
  exact ⟨e0, h0, h1.symm⟩

/-- Membership in the `available` list comes from an `available` entry. -/
theorem mem_availableIds {x : String} {p : AccountPool} (h : x ∈ availableIds p) :
    ∃ s, (x, s) ∈ p.statuses ∧ s.status = .available := by
  simp only [availableIds, List.mem_map, List.mem_filter, decide_eq_true_eq] at h
  obtain ⟨e, ⟨he, hs⟩, hx⟩ := h
  refine ⟨e.2, ?_, hs⟩
  have he2 : e = (x, e.2) := by
    cases e
    simp only at hx
    simp [hx]
  rwa [← he2]

theorem listLookup_eq_some_of_mem {l : List (String × AccountStatus)} {x : String}
    {s : AccountStatus} (hnd : (l.map Prod.fst).Nodup) (h : (x, s) ∈ l) :
    listLookup l x = some s := by
  induction l with
  | nil => cases h
  | cons e t ih =>
      simp only [List.map_cons, List.nodup_cons] at hnd
      rcases List.mem_cons.mp h with h | h
      · simp [listLookup, ← h]
      · have hne : e.1 ≠ x := by
          intro hx
          exact hnd.1 (by
            exact List.mem_map.mpr ⟨(x, s), h, by simp [hx]⟩)
        simp [listLookup, hne, ih hnd.2 h]

theorem mem_of_listLookup_eq_some {l : List (String × AccountStatus)} {x : String}
    {s : AccountStatus} (h : listLookup l x = some s) : (x, s) ∈ l := by
  induction l with
  | nil => cases h
  | cons e t ih =>
      by_cases hx : e.1 = x
      · simp only [listLookup, hx, if_pos rfl] at h
        cases h
        exact List.mem_cons.mpr (Or.inl (by rw [← hx]))
      · simp only [listLookup, hx, if_neg hx] at h
        exact List.mem_cons.mpr (Or.inr (ih h))

/-- With distinct keys, an `available` entry is exactly what a lookup sees. -/
theorem mem_availableIds_iff {x : String} {p : AccountPool} (hnd : NodupKeys p) :
    x ∈ availableIds p ↔ ∃ s, listLookup p.statuses x = some s ∧ s.status = .available := by
  constructor
  · intro h
    obtain ⟨s, hm, hs⟩ := mem_availableIds h
    exact ⟨s, listLookup_eq_some_of_mem hnd hm, hs⟩
  · intro ⟨s, hl, hs⟩
    have hm := mem_of_listLookup_eq_some hl
    simp only [availableIds, List.mem_map]
    exact ⟨(x, s), List.mem_filter.mpr ⟨hm, by simp [hs]⟩, rfl⟩

/-- `tickStatus` leaves every non-`cooldown` state alone. -/
theorem tickStatus_of_ne_cooldown {now : ℚ} {s : AccountStatus}
    (h : s.status ≠ .cooldown) : tickStatus now s = s := by
  simp [tickStatus, h]

/-! ## Arithmetic helpers for the weighted distribution -/

theorem sum_map_div (l : List ℚ) (c : ℚ) : (l.map (fun w => w / c)).sum = l.sum / c := by
  induction l with
  | nil => simp
  | cons a t ih => simp [ih, add_div]

theorem sum_map_mul_left (l : List ℚ) (c : ℚ) :
    (l.map (fun w => c * w)).sum = c * l.sum := by
  induction l with
  | nil => simp
  | cons a t ih => simp [ih, mul_add]

/-- Core properties of `distribute_amount_randomly`: for a positive total and
at least one part, the result has exactly `n` parts, every part is strictly
positive, and the parts sum exactly to the total. -/
theorem distribute_spec (total : ℚ) (n : Nat) (vars : Nat → ℚ)
    (htotal : 0 < total) (hn : 1 ≤ n) :
    (distribute_amount_randomly total n vars).length = n ∧
    (∀ x ∈ distribute_amount_randomly total n vars, 0 < x) ∧
    (distribute_amount_randomly total n vars).sum = total := by
  by_cases h1 : n = 1
  · subst h1
    refine ⟨rfl, ?_, by simp [distribute_amount_randomly]⟩
    intro x hx
    simp [distribute_amount_randomly] at hx
    rwa [hx]
  · unfold distribute_amount_randomly
    rw [if_neg h1]
    set weights := (List.range n).map (fun i => max (3/10 : ℚ) (1 + vars i)) with hw
    set W := weights.sum with hW
    have hwpos : ∀ w ∈ weights, 0 < w := by
      intro w hw'
      rw [hw] at hw'
      obtain ⟨i, _, hi⟩ := List.mem_map.mp hw'
      rw [← hi]
      calc (0:ℚ) < 3/10 := by norm_num
        _ ≤ max (3/10) (1 + vars i) := le_max_left _ _
    have hwne : weights ≠ [] := by
      rw [hw]
      simp only [ne_eq, List.map_eq_nil_iff, List.range_eq_nil]
      omega
    have hWpos : 0 < W := List.sum_pos weights hwpos hwne
    set normalized := weights.map (fun w => w / W) with hnorm
    have hnsum : normalized.sum = 1 := by
      rw [hnorm, sum_map_div, ← hW, div_self (ne_of_gt hWpos)]
    set amounts := normalized.map (fun w => total * w) with ham
    have hasum : amounts.sum = total := by
      rw [ham, sum_map_mul_left, hnsum, mul_one]
    have hapos : ∀ x ∈ amounts, 0 < x := by
      intro x hx
      rw [ham] at hx
      obtain ⟨w, hwmem, hxe⟩ := List.mem_map.mp hx
      rw [hnorm] at hwmem
      obtain ⟨w0, hw0, hwe⟩ := List.mem_map.mp hwmem
      rw [← hxe, ← hwe]
      exact mul_pos htotal (div_pos (hwpos w0 hw0) hWpos)
    have halen : amounts.length = n := by
      rw [ham, hnorm, hw]
      simp
    have hane : amounts ≠ [] := by
      intro h
      rw [h] at halen
      simp at halen
      omega
    have hsplit : amounts.dropLast ++ [amounts.getLast hane] = amounts :=
      List.dropLast_append_getLast hane
    have hlast : total - amounts.dropLast.sum = amounts.getLast hane := by
      have hsum := congrArg List.sum hsplit
      rw [List.sum_append, List.sum_cons, List.sum_nil, add_zero, hasum] at hsum
      linarith
    refine ⟨?_, ?_, ?_⟩
    · rw [List.length_append, List.length_dropLast, halen]
      simp
      omega
    · intro x hx
      rcases List.mem_append.mp hx with hx | hx
      · exact hapos x ((List.dropLast_sublist amounts).subset hx)
      · simp only [List.mem_singleton] at hx
        rw [hx, hlast]
        exact hapos _ (List.getLast_mem hane)
    · rw [List.sum_append, List.sum_cons, List.sum_nil, add_zero]
      ring

/-! ## Claim theorems -/

/-- C2: for every batch the total USD notional is split exactly in half
between the long and the short side, and `distribute_amount_randomly` splits
each half into exactly `n` strictly positive shares whose sum is exactly the
half — for every total > 0, every part count ≥ 1 and every sequence of random
variations (hence every variation range). -/
theorem C2_hedge_distribution (total_batch_size_usd : ℚ) (nl ns : Nat)
    (vl vs : Nat → ℚ) (htotal : 0 < total_batch_size_usd)
    (hnl : 1 ≤ nl) (hns : 1 ≤ ns) :
    (open_positions_split total_batch_size_usd).1 = total_batch_size_usd / 2 ∧
    (open_positions_split total_batch_size_usd).2 = total_batch_size_usd / 2 ∧
    (distribute_amount_randomly (open_positions_split total_batch_size_usd).1 nl vl).length
        = nl ∧
    (distribute_amount_randomly (open_positions_split total_batch_size_usd).1 nl vl).sum
        = total_batch_size_usd / 2 ∧
    (∀ x ∈ distribute_amount_randomly (open_positions_split total_batch_size_usd).1 nl vl,
        0 < x) ∧
    (distribute_amount_randomly (open_positions_split total_batch_size_usd).2 ns vs).length
        = ns ∧
    (distribute_amount_randomly (open_positions_split total_batch_size_usd).2 ns vs).sum
        = total_batch_size_usd / 2 ∧
    (∀ x ∈ distribute_amount_randomly (open_positions_split total_batch_size_usd).2 ns vs,
        0 < x) := by
  have hhalf : 0 < total_batch_size_usd / 2 := by linarith
  have hl := distribute_spec (total_batch_size_usd / 2) nl vl hhalf hnl
  have hs := distribute_spec (total_batch_size_usd / 2) ns vs hhalf hns
  exact ⟨rfl, rfl, hl.1, hl.2.2, hl.2.1, hs.1, hs.2.2, hs.2.1⟩

/-- Witness for C2 at total 10, one long and two shorts, zero variations. -/
theorem C2_witness :
    (0:ℚ) < 10 ∧
    (distribute_amount_randomly (open_positions_split 10).2 2 (fun _ => 0)).sum = 10 / 2 :=
  ⟨by norm_num,
    (C2_hedge_distribution 10 1 2 (fun _ => 0) (fun _ => 0) (by norm_num) (by norm_num)
      (by norm_num)).2.2.2.2.2.2.1⟩

/-- C5: a generator tick at queue capacity changes nothing (neither the queue
nor the pool), a tick below capacity keeps the depth bounded, and starting
from an empty queue (the generator being the only producer) the queue depth
never exceeds the configured maximum over any sequence of ticks. -/
theorem C5_queue_backpressure (max_queue_size : Nat) :
    (∀ st t, max_queue_size ≤ st.1 → generate_batch max_queue_size st t = st) ∧
    (∀ st t, st.1 ≤ max_queue_size →
      (generate_batch max_queue_size st t).1 ≤ max_queue_size) ∧
    (∀ (p0 : AccountPool) (ticks : List GenTick),
      (ticks.foldl (generate_batch max_queue_size) (0, p0)).1 ≤ max_queue_size) := by
  have hskip : ∀ st t, max_queue_size ≤ st.1 → generate_batch max_queue_size st t = st := by
    intro st t h
    unfold generate_batch
    rw [if_pos h]
  have hstep : ∀ st t, st.1 ≤ max_queue_size →
      (generate_batch max_queue_size st t).1 ≤ max_queue_size := by
    intro st t h
    unfold generate_batch
    by_cases hq : max_queue_size ≤ st.1
    · rw [if_pos hq]
      exact h
    · rw [if_neg hq]
      push_neg at hq
      rcases hr : get_random_batch_balanced t.choose t.now st.2 t.size t.min_size t.balanced
        with ⟨o, p1⟩
      cases o <;> simp [hr] <;> omega
  refine ⟨hskip, hstep, ?_⟩
  intro p0 ticks
  have hinv : ∀ (st : Nat × AccountPool), st.1 ≤ max_queue_size →
      (ticks.foldl (generate_batch max_queue_size) st).1 ≤ max_queue_size := by
    induction ticks with
    | nil => intro st h; exact h
    | cons t ts ih =>
        intro st h
        exact ih _ (hstep st t h)
  exact hinv (0, p0) (Nat.zero_le _)

/-- Witness for C5: a tick at capacity 3 with depth 3 is a no-op. -/
theorem C5_witness :
    generate_batch 3 (3, AccountPool.mk 60 []) (GenTick.mk sampleTake 0 2 none false)
      = (3, AccountPool.mk 60 []) :=
  (C5_queue_backpressure 3).1 (3, AccountPool.mk 60 [])
    (GenTick.mk sampleTake 0 2 none false) (le_refl 3)

/-- C9: `get_prices` serves the cached (bid, ask) exactly when an entry for
the normalised market symbol exists and is at most `max_age_seconds` old, and
serves nothing otherwise; the read leaves the cache unchanged. -/
theorem C9_price_staleness (c : OBCache) (market : String) (max_age_seconds now : ℚ) :
    (get_prices c market max_age_seconds now).2 = c ∧
    (cacheLookup c (normalizeMarket market) = none →
      (get_prices c market max_age_seconds now).1 = none) ∧
    (∀ e, cacheLookup c (normalizeMarket market) = some e →
      (now - e.timestamp ≤ max_age_seconds →
        (get_prices c market max_age_seconds now).1 = some (e.bid, e.ask)) ∧
      (max_age_seconds < now - e.timestamp →
        (get_prices c market max_age_seconds now).1 = none)) := by
  refine ⟨?_, ?_, ?_⟩
  · unfold get_prices
    rcases h : cacheLookup c (normalizeMarket market) with _ | e
    · simp [h]
    · by_cases ha : max_age_seconds < now - e.timestamp <;> simp [h, ha]
  · intro h
    simp [get_prices, h]
  · intro e h
    constructor
    · intro hage
      simp [get_prices, h, not_lt.mpr hage]
    · intro hage
      simp [get_prices, h, hage]

/-- C10: an order-book update with empty bids or empty asks leaves the cache
completely unchanged, so every later read sees exactly what it would have
seen before the update. -/
theorem C10_empty_update_ignored (c : OBCache) (market : String)
    (bids asks : List (Option ℚ)) (now : ℚ) (h : bids = [] ∨ asks = []) :
    update_orderbook c market bids asks now = c ∧
    ∀ m a n, get_prices (update_orderbook c market bids asks now) m a n
      = get_prices c m a n := by
  have h1 : update_orderbook c market bids asks now = c := by
    unfold update_orderbook
    rw [if_pos h]
  exact ⟨h1, fun m a n => by rw [h1]⟩

/-- Witness for C10: an empty-bids update over a one-entry cache is ignored. -/
theorem C10_witness :
    update_orderbook [("BTC-USD", CacheEntry.mk 100 101 0 1 1 (201/2))] "BTC-USD"
        [] [some 5] 3
      = [("BTC-USD", CacheEntry.mk 100 101 0 1 1 (201/2))] :=
  (C10_empty_update_ignored [("BTC-USD", CacheEntry.mk 100 101 0 1 1 (201/2))] "BTC-USD"
    [] [some 5] 3 (Or.inl rfl)).1

/-- For the fail-first-`n` client the retry loop succeeds exactly when some
attempt index below `i + r` reaches `n`. -/
theorem closeLoop_failN (n : Nat) (mOK : Bool) :
    ∀ (r i : Nat), i ≤ n →
      closeLoop (failNClient n mOK) i r =
        if n < i + r then some ⟨true, 0, true⟩ else none := by
  intro r
  induction r with
  | zero =>
      intro i hi
      have hni : ¬ n < i := by omega
      simp [closeLoop, hni]
  | succ r ih =>
      intro i hi
      by_cases hin : i = n
      · subst hin
        have hlt : i < i + (r + 1) := by omega
        simp [closeLoop, failNClient, hlt]
      · have hilt : i < n := lt_of_le_of_ne hi hin
        have hstep : closeLoop (failNClient n mOK) i (r + 1)
            = closeLoop (failNClient n mOK) (i + 1) r := by
          have hni : ¬ n ≤ i := by omega
          simp [closeLoop, failNClient, hni]
        rw [hstep, ih (i + 1) hilt]
        have harith : i + 1 + r = i + (r + 1) := by omega
        rw [harith]

/-- C6 (amended): against a client whose limit close fails the first `n`
attempts and succeeds afterwards, `_close_position_with_limit_retry` reports
success exactly when `n < max_close_retries` **or** the market fallback is
enabled and its market order succeeds; when all limit attempts fail the
market fallback is placed exactly once if enabled (never otherwise), and on
every success path the remaining orders are cancelled afterwards. -/
theorem C6_close_retry_amended (n max_retries : Nat) (use_market_fallback marketOK : Bool) :
    (close_position_with_limit_retry (failNClient n marketOK) max_retries
        use_market_fallback).success
      = (decide (n < max_retries) || (use_market_fallback && marketOK)) ∧
    (close_position_with_limit_retry (failNClient n marketOK) max_retries
        use_market_fallback).marketCalls
      = (if n < max_retries then 0 else if use_market_fallback then 1 else 0) ∧
    (close_position_with_limit_retry (failNClient n marketOK) max_retries
        use_market_fallback).finalCancel
      = (close_position_with_limit_retry (failNClient n marketOK) max_retries
          use_market_fallback).success := by
  unfold close_position_with_limit_retry
  rw [closeLoop_failN n marketOK max_retries 0 (Nat.zero_le n)]
  simp only [Nat.zero_add]
  by_cases h : n < max_retries
  · simp [h]
  · simp only [h, if_neg h, decide_eq_true_eq]
    simp [closeFallback, failNClient]
    cases use_market_fallback <;> cases marketOK <;> simp

/-- Counterexample to C6 as stated: with one limit failure, a retry budget of
one, and the market fallback enabled and succeeding, the close reports
success even though `n < max_close_retries` is false — the claimed "success
iff n < max_close_retries" fails. -/
theorem C6_counterexample :
    (close_position_with_limit_retry (failNClient 1 true) 1 true).success = true ∧
    (close_position_with_limit_retry (failNClient 1 true) 1 true).marketCalls = 1 ∧
    ¬ (1 < 1) := by
  refine ⟨by decide, by decide, by decide⟩

/-! ## Reduction lemmas for batch selection -/

theorem availableIds_nodup {p : AccountPool} (h : NodupKeys p) : (availableIds p).Nodup := by
  have hsub : List.Sublist (availableIds p) (p.statuses.map Prod.fst) :=
    (List.filter_sublist _).map _
  exact h.sublist hsub

theorem listLookup_update_cooldowns (now : ℚ) (p : AccountPool) (x : String) :
    listLookup (update_cooldowns now p).statuses x =
      (listLookup p.statuses x).map (tickStatus now) :=
  listLookup_mapStatuses _ p x

theorem listLookup_markBatch (now : ℚ) (batch : List String) (p : AccountPool) (x : String) :
    listLookup (markBatch now batch p).statuses x =
      (listLookup p.statuses x).map (fun s =>
        if x ∈ batch then { s with status := .in_trade, last_trade_time := some now }
        else s) :=
  listLookup_mapStatuses _ p x

theorem get_random_batch_refuse {choose : List String → Nat → List String} {now : ℚ}
    {p : AccountPool} {size : Nat} {min_size : Option Nat}
    (h : (availableIds (update_cooldowns now p)).length < eff_min_size size min_size) :
    get_random_batch choose now p size min_size = (none, update_cooldowns now p) := by
  simp only [get_random_batch]
  rw [if_pos h]

theorem get_random_batch_grant {choose : List String → Nat → List String} {now : ℚ}
    {p : AccountPool} {size : Nat} {min_size : Option Nat}
    (h : ¬ (availableIds (update_cooldowns now p)).length < eff_min_size size min_size) :
    get_random_batch choose now p size min_size =
      (some (choose (availableIds (update_cooldowns now p))
          (min size (availableIds (update_cooldowns now p)).length)),
        markBatch now
          (choose (availableIds (update_cooldowns now p))
            (min size (availableIds (update_cooldowns now p)).length))
          (update_cooldowns now p)) := by
  simp only [get_random_batch]
  rw [if_neg h]

/-- Whatever branch a (possibly balanced) selection takes, either it returns
nothing and the pool is just the cooldown-updated pool, or it returns a batch
and the pool is the cooldown-updated pool with exactly that batch marked
`in_trade`. -/
theorem grbb_cases (choose : List String → Nat → List String) (now : ℚ)
    (p : AccountPool) (size : Nat) (min_size : Option Nat) (bal : Bool) :
    ((get_random_batch_balanced choose now p size min_size bal).1 = none ∧
      (get_random_batch_balanced choose now p size min_size bal).2
        = update_cooldowns now p) ∨
    ∃ batch, (get_random_batch_balanced choose now p size min_size bal).1 = some batch ∧
      (get_random_batch_balanced choose now p size min_size bal).2
        = markBatch now batch (update_cooldowns now p) := by
  cases bal with
  | false =>
      have hbase : get_random_batch_balanced choose now p size min_size false
          = get_random_batch choose now p size min_size := rfl
      rw [hbase]
      by_cases h : (availableIds (update_cooldowns now p)).length < eff_min_size size min_size
      · rw [get_random_batch_refuse h]
        exact Or.inl ⟨rfl, rfl⟩
      · rw [get_random_batch_grant h]
        exact Or.inr ⟨_, rfl, rfl⟩
  | true =>
      simp only [get_random_batch_balanced]
      by_cases h : (balancedAvailable now p).length < eff_min_size size min_size
      · rw [if_pos h]
        exact Or.inl ⟨rfl, rfl⟩
      · rw [if_neg h]
        exact Or.inr ⟨_, rfl, rfl⟩

/-- A granted selection marks exactly its returned batch. -/
theorem grbb_some_snd {choose : List String → Nat → List String} {now : ℚ}
    {p : AccountPool} {size : Nat} {min_size : Option Nat} {bal : Bool}
    {b : List String}
    (h : (get_random_batch_balanced choose now p size min_size bal).1 = some b) :
    (get_random_batch_balanced choose now p size min_size bal).2
      = markBatch now b (update_cooldowns now p) := by
  cases bal with
  | false =>
      have hbase : get_random_batch_balanced choose now p size min_size false
          = get_random_batch choose now p size min_size := rfl
      rw [hbase] at h ⊢
      by_cases hl : (availableIds (update_cooldowns now p)).length
          < eff_min_size size min_size
      · rw [get_random_batch_refuse hl] at h
        cases h
      · rw [get_random_batch_grant hl] at h ⊢
        cases h
        rfl
  | true =>
      simp only [get_random_batch_balanced] at h ⊢
      by_cases hl : (balancedAvailable now p).length < eff_min_size size min_size
      · rw [if_pos hl] at h
        cases h
      · rw [if_neg hl] at h ⊢
        cases h
        rfl

/-- Under the sample-subset property, every member of a granted batch was an
`available` account of the cooldown-updated pool. -/
theorem grbb_some_mem {choose : List String → Nat → List String} {now : ℚ}
    {p : AccountPool} {size : Nat} {min_size : Option Nat} {bal : Bool}
    {b : List String} (hsub : SampleSub choose)
    (h : (get_random_batch_balanced choose now p size min_size bal).1 = some b) :
    ∀ x ∈ b, x ∈ availableIds (update_cooldowns now p) := by
  intro x hx
  cases bal with
  | false =>
      have hbase : get_random_batch_balanced choose now p size min_size false
          = get_random_batch choose now p size min_size := rfl
      rw [hbase] at h
      by_cases hl : (availableIds (update_cooldowns now p)).length
          < eff_min_size size min_size
      · rw [get_random_batch_refuse hl] at h
        cases h
      · rw [get_random_batch_grant hl] at h
        cases h
        exact hsub _ _ _ hx
  | true =>
      simp only [get_random_batch_balanced] at h
      by_cases hl : (balancedAvailable now p).length < eff_min_size size min_size
      · rw [if_pos hl] at h
        cases h
      · rw [if_neg hl] at h
        cases h
        -- x was sampled from the candidate window
        have hx2 := hsub _ _ _ hx
        simp only [balancedBatch, List.mem_map] at hx2
        obtain ⟨e, he, hex⟩ := hx2
        have hsorted : e ∈ balancedSorted now p := by
          unfold balancedCandidates at he
          by_cases hw : min size (balancedSorted now p).length
              < (balancedSorted now p).length
          · rw [if_pos hw] at he
            exact List.take_subset _ _ he
          · rw [if_neg hw] at he
            exact he
        have hsorted2 : e ∈ List.insertionSort
            (fun a b => a.2.trades_count ≤ b.2.trades_count)
            (balancedAvailable now p) := hsorted
        have havail : e ∈ balancedAvailable now p :=
          (List.perm_insertionSort
            (fun a b => a.2.trades_count ≤ b.2.trades_count)
            (balancedAvailable now p)).subset hsorted2
        exact List.mem_map.mpr ⟨e, havail, hex⟩

/-! ## Mutual exclusion -/

/-- Every pool entry for account `x` is currently `in_trade` or `disabled`,
so `x` cannot be picked up by a selection. -/
def NotSelectableEntries (x : String) (p : AccountPool) : Prop :=
  ∀ e ∈ p.statuses, e.1 = x → e.2.status = .in_trade ∨ e.2.status = .disabled

theorem notSel_mapStatuses {x : String} {p : AccountPool}
    (step : String → AccountStatus → AccountStatus)
    (hstep : ∀ s, s.status = .in_trade ∨ s.status = .disabled →
      (step x s).status = .in_trade ∨ (step x s).status = .disabled)
    (h : NotSelectableEntries x p) : NotSelectableEntries x (mapStatuses step p) := by
  intro e he hx
  obtain ⟨e0, h0, he0⟩ := mem_mapStatuses step p he
  rw [he0] at hx ⊢
  simp only at hx ⊢
  rw [hx]
  exact hstep e0.2 (h e0 h0 hx)

theorem notSel_update_cooldowns {x : String} {p : AccountPool} (now : ℚ)
    (h : NotSelectableEntries x p) : NotSelectableEntries x (update_cooldowns now p) := by
  refine notSel_mapStatuses _ (fun s hs => ?_) h
  have hne : s.status ≠ .cooldown := by
    rcases hs with hs | hs <;> simp [hs]
  rw [tickStatus_of_ne_cooldown hne]
  exact hs

theorem notSel_markBatch {x : String} {p : AccountPool} (now : ℚ) (batch : List String)
    (h : NotSelectableEntries x p) : NotSelectableEntries x (markBatch now batch p) := by
  refine notSel_mapStatuses _ (fun s hs => ?_) h
  by_cases hb : x ∈ batch
  · simp [hb]
  · simpa [hb] using hs

/-- An account all of whose entries are marked `in_trade` by a batch is not
selectable afterwards. -/
theorem notSel_markBatch_mem {x : String} {p : AccountPool} {now : ℚ}
    {batch : List String} (hx : x ∈ batch) :
    NotSelectableEntries x (markBatch now batch p) := by
  intro e he hkey
  obtain ⟨e0, h0, he0⟩ := mem_mapStatuses _ p he
  rw [he0] at hkey ⊢
  simp only at hkey ⊢
  rw [hkey]
  simp [hx]

/-- Any pool operation that does not free `x` (no release and no re-enable
of `x`) keeps `x` unselectable. -/
theorem notSel_applyOp {x : String} {p : AccountPool} (op : PoolOp)
    (hfree : op_frees op x = false) (h : NotSelectableEntries x p) :
    NotSelectableEntries x (applyOp p op) := by
  cases op with
  | select choose now size min_size balanced =>
      show NotSelectableEntries x (get_random_batch_balanced choose now p size
        min_size balanced).2
      rcases grbb_cases choose now p size min_size balanced with ⟨_, hc⟩ | ⟨batch, _, hc⟩
      · rw [hc]
        exact notSel_update_cooldowns now h
      · rw [hc]
        exact notSel_markBatch now batch (notSel_update_cooldowns now h)
  | release now ids cd =>
      have hxids : x ∉ ids := by
        simpa [op_frees] using hfree
      exact notSel_mapStatuses _ (fun s hs => by simpa [hxids] using hs) h
  | releaseImm ids =>
      have hxids : x ∉ ids := by
        simpa [op_frees] using hfree
      exact notSel_mapStatuses _ (fun s hs => by simpa [hxids] using hs) h
  | disable id =>
      refine notSel_mapStatuses _ (fun s hs => ?_) h
      by_cases hid : x = id
      · simp [hid]
      · simpa [hid] using hs
  | enable id =>
      have hid : id ≠ x := by
        simpa [op_frees] using hfree
      refine notSel_mapStatuses _ (fun s hs => ?_) h
      have hxid : x ≠ id := fun hc => hid hc.symm
      simpa [hxid] using hs
  | tick now =>
      exact notSel_update_cooldowns now h

theorem notSel_applyOps {x : String} (ops : List PoolOp) :
    ∀ (p : AccountPool), (∀ op ∈ ops, op_frees op x = false) →
      NotSelectableEntries x p → NotSelectableEntries x (applyOps p ops) := by
  induction ops with
  | nil => intro p _ h; exact h
  | cons op t ih =>
      intro p hops h
      have h1 := notSel_applyOp op (hops op (List.mem_cons_self op t)) h
      exact ih (applyOp p op)
        (fun o ho => hops o (List.mem_cons_of_mem op ho)) h1

/-- An unselectable account is never part of a granted batch. -/
theorem notSel_not_selected {x : String} {choose : List String → Nat → List String}
    {now : ℚ} {p : AccountPool} {size : Nat} {min_size : Option Nat} {bal : Bool}
    {b : List String} (hsub : SampleSub choose) (h : NotSelectableEntries x p)
    (hb : (get_random_batch_balanced choose now p size min_size bal).1 = some b) :
    x ∉ b := by
  intro hx
  have hmem := grbb_some_mem hsub hb x hx
  obtain ⟨s, hm, hs⟩ := mem_availableIds hmem
  have hns := notSel_update_cooldowns now h (x, s) hm rfl
  rw [hs] at hns
  rcases hns with hc | hc <;> cases hc

/-- C1 (amended): two batches granted by `get_random_batch` (plain or
balanced) are disjoint provided none of the first batch's accounts was freed
in between — freed meaning `release_batch`, `release_immediately`, **or**
`enable_account` (the amendment: an explicit `enable_account` also returns an
`in_trade` account to circulation, which the original claim did not except). -/
theorem C1_mutual_exclusion_amended
    (p : AccountPool) (choose1 choose2 : List String → Nat → List String)
    (now1 now2 : ℚ) (size1 size2 : Nat) (ms1 ms2 : Option Nat) (bal1 bal2 : Bool)
    (b1 b2 : List String) (ops : List PoolOp)
    (hsub2 : SampleSub choose2)
    (hb1 : (get_random_batch_balanced choose1 now1 p size1 ms1 bal1).1 = some b1)
    (hops : ∀ op ∈ ops, ∀ x ∈ b1, op_frees op x = false)
    (hb2 : (get_random_batch_balanced choose2 now2
        (applyOps (get_random_batch_balanced choose1 now1 p size1 ms1 bal1).2 ops)
        size2 ms2 bal2).1 = some b2) :
    ∀ x ∈ b1, x ∉ b2 := by
  intro x hx
  have h1 : NotSelectableEntries x
      (get_random_batch_balanced choose1 now1 p size1 ms1 bal1).2 := by
    rw [grbb_some_snd hb1]
    exact notSel_markBatch_mem hx
  have h2 := notSel_applyOps ops _ (fun op hop => hops op hop x hx) h1
  exact notSel_not_selected hsub2 h2 hb2

/-- Witness for C1 (amended): two accounts, two singleton selections with a
cooldown tick in between; the second batch avoids the first's account. -/
theorem C1_witness : "a" ∉ ["b"] :=
  C1_mutual_exclusion_amended
    (AccountPool.mk 60 [("a", AccountStatus.mk .available none 0 none),
      ("b", AccountStatus.mk .available none 0 none)])
    sampleTake sampleTake 0 1 1 1 none none false false ["a"] ["b"]
    [PoolOp.tick 1] sampleSub_take (by decide) (by decide) (by decide) "a" (by decide)

/-- Counterexample to C1 as stated: a single account is selected, then
`enable_account` (which is neither `release_batch` nor `release_immediately`)
is applied to it, and the next selection returns the same account — the two
batches both contain "a" even though no release happened in between. -/
theorem C1_counterexample :
    ((get_random_batch_balanced sampleTake 0
        (AccountPool.mk 60 [("a", AccountStatus.mk .available none 0 none)])
        1 none false).1 = some ["a"]) ∧
    (∀ op ∈ [PoolOp.enable "a"], op_is_release op = false) ∧
    ((get_random_batch_balanced sampleTake 1
        (applyOps (get_random_batch_balanced sampleTake 0
          (AccountPool.mk 60 [("a", AccountStatus.mk .available none 0 none)])
          1 none false).2 [PoolOp.enable "a"]) 1 none false).1 = some ["a"]) ∧
    "a" ∈ ["a"] := by
  refine ⟨by decide, ?_, by decide, by decide⟩
  intro op hop
  simp only [List.mem_singleton] at hop
  rw [hop]
  rfl

/-! ## Selection semantics (claim C3) -/

/-- The amended selection contract of `AccountPool.get_random_batch`: the
lazy cooldown pass runs first; the call refuses (returning nothing and
leaving the cooldown-updated pool untouched) exactly when fewer than
`eff_min_size size min_size` accounts are available (`min_size` of `None`
**or `0`** defaults to `size`); otherwise it returns `min size availCount`
distinct previously-`available` accounts, exactly those accounts become
`in_trade` with their last-trade time stamped, and every other account is
unchanged. -/
def SelectClaim (choose : List String → Nat → List String) (now : ℚ)
    (p : AccountPool) (size : Nat) (min_size : Option Nat) : Prop :=
  (∀ x s, listLookup p.statuses x = some s →
    (∀ rt, s.status = .cooldown → s.release_time = some rt → rt ≤ now →
      listLookup (update_cooldowns now p).statuses x
        = some { s with status := .available, release_time := none }) ∧
    (∀ rt, s.status = .cooldown → s.release_time = some rt → now < rt →
      listLookup (update_cooldowns now p).statuses x = some s) ∧
    (s.status ≠ .cooldown → listLookup (update_cooldowns now p).statuses x = some s)) ∧
  ((availableIds (update_cooldowns now p)).length < eff_min_size size min_size →
    get_random_batch choose now p size min_size = (none, update_cooldowns now p)) ∧
  (eff_min_size size min_size ≤ (availableIds (update_cooldowns now p)).length →
    ∃ b, (get_random_batch choose now p size min_size).1 = some b ∧
      b.Nodup ∧
      b.length = min size (availableIds (update_cooldowns now p)).length ∧
      (∀ x ∈ b, ∃ s, listLookup (update_cooldowns now p).statuses x = some s ∧
        s.status = .available ∧
        listLookup (get_random_batch choose now p size min_size).2.statuses x
          = some { s with status := .in_trade, last_trade_time := some now }) ∧
      (∀ x, x ∉ b →
        listLookup (get_random_batch choose now p size min_size).2.statuses x
          = listLookup (update_cooldowns now p).statuses x))

/-- C3 (amended): `get_random_batch` satisfies the selection contract above —
the amendment being only that an explicit `min_size` of `0` is treated like
`None` (Python's `min_size or size`), so the floor is then `size`, not `0`. -/
theorem C3_select_semantics_amended (choose : List String → Nat → List String)
    (now : ℚ) (p : AccountPool) (size : Nat) (min_size : Option Nat)
    (hchoose : SampleSpec choose) (hnd : NodupKeys p) (hrt : PosReleaseTimes p) :
    SelectClaim choose now p size min_size := by
  have hnd1 : NodupKeys (update_cooldowns now p) := nodupKeys_mapStatuses _ p hnd
  refine ⟨?_, ?_, ?_⟩
  · intro x s hs
    have hl2 : listLookup (update_cooldowns now p).statuses x
        = some (tickStatus now s) := by
      rw [listLookup_update_cooldowns, hs]
      rfl
    have hmem := mem_of_listLookup_eq_some hs
    have hposrt := hrt (x, s) hmem
    refine ⟨?_, ?_, ?_⟩
    · intro rt hc hrel hle
      rw [hl2]
      have hrt0 : rt ≠ 0 := by
        rw [hrel] at hposrt
        simp only [posRT, decide_eq_true_eq] at hposrt
        exact ne_of_gt hposrt
      simp [tickStatus, hc, hrel, hrt0, hle]
    · intro rt hc hrel hlt
      rw [hl2]
      have hnle : ¬ rt ≤ now := not_le.mpr hlt
      simp [tickStatus, hc, hrel, hnle]
    · intro hc
      rw [hl2, tickStatus_of_ne_cooldown hc]
  · intro h
    exact get_random_batch_refuse h
  · intro h
    have hnotlt : ¬ (availableIds (update_cooldowns now p)).length
        < eff_min_size size min_size := not_lt.mpr h
    obtain ⟨hsubp, hlen, hnodup⟩ := hchoose (availableIds (update_cooldowns now p))
      (min size (availableIds (update_cooldowns now p)).length)
    refine ⟨choose (availableIds (update_cooldowns now p))
        (min size (availableIds (update_cooldowns now p)).length), ?_, ?_, ?_, ?_, ?_⟩
    · rw [get_random_batch_grant hnotlt]
    · exact hnodup (availableIds_nodup hnd1)
    · rw [hlen, min_assoc, min_self]
    · intro x hx
      have hxa := hsubp x hx
      obtain ⟨s, hls, hsav⟩ := (mem_availableIds_iff hnd1).mp hxa
      refine ⟨s, hls, hsav, ?_⟩
      rw [get_random_batch_grant hnotlt]
      dsimp only
      rw [listLookup_markBatch, hls]
      simp [hx]
    · intro x hx
      rw [get_random_batch_grant hnotlt]
      dsimp only
      rw [listLookup_markBatch]
      cases hls : listLookup (update_cooldowns now p).statuses x
      · rfl
      · simp [hx]

/-- Witness for C3 (amended): a pool with one available account and one
cooldown account whose release time has elapsed. -/
theorem C3_witness :
    SelectClaim sampleTake 10
      (AccountPool.mk 60 [("a", AccountStatus.mk .available none 0 none),
        ("b", AccountStatus.mk .cooldown (some 5) 2 (some 1))]) 3 none :=
  C3_select_semantics_amended sampleTake 10
    (AccountPool.mk 60 [("a", AccountStatus.mk .available none 0 none),
      ("b", AccountStatus.mk .cooldown (some 5) 2 (some 1))]) 3 none
    sampleSpec_take (by decide) (by decide)

/-- Counterexample to C3 as stated: with one available account, a call with
`size = 2` and an explicit `min_size = 0` returns nothing, even though the
available count (1) is not below the claimed floor (`min_size = 0`, which the
claim says only defaults to `size` when absent). -/
theorem C3_counterexample :
    ((get_random_batch sampleTake 0
        (AccountPool.mk 60 [("a", AccountStatus.mk .available none 0 none)])
        2 (some 0)).1 = none) ∧
    ¬ ((availableIds (update_cooldowns 0
        (AccountPool.mk 60 [("a", AccountStatus.mk .available none 0 none)]))).length
      < Option.getD (some 0) 2) := by
  exact ⟨by decide, by decide⟩

/-! ## Cooldown correctness (claim C4) -/

/-- C4: releasing an account with cooldown `C` at time `t0` stamps its release
time `t0 + C` and bumps its trade counter; no selection (plain or balanced) at
any time strictly before `t0 + C` returns it; and from any time at or past
`t0 + C` the lazy expiry makes it `available` again with the release time
cleared, idempotently (further cooldown passes leave it `available`).
Side conditions `0 ≤ C` and `0 < t0` reflect wall-clock time. -/
theorem C4_cooldown_correctness (p : AccountPool) (acc : String) (s : AccountStatus)
    (t0 C : ℚ) (hnd : NodupKeys p) (hs : listLookup p.statuses acc = some s)
    (hC : 0 ≤ C) (ht : 0 < t0) :
    (listLookup (release_batch t0 p [acc] (some C)).statuses acc
      = some { s with
          status := .cooldown, release_time := some (t0 + C),
          trades_count := s.trades_count + 1 }) ∧
    (∀ choose now1 size min_size bal b, SampleSub choose → now1 < t0 + C →
      (get_random_batch_balanced choose now1 (release_batch t0 p [acc] (some C))
          size min_size bal).1 = some b → acc ∉ b) ∧
    (∀ now2, t0 + C ≤ now2 →
      (listLookup (update_cooldowns now2 (release_batch t0 p [acc] (some C))).statuses acc
        = some { s with
            status := .available, release_time := none,
            trades_count := s.trades_count + 1 }) ∧
      (∀ now3, listLookup (update_cooldowns now3 (update_cooldowns now2
          (release_batch t0 p [acc] (some C)))).statuses acc
        = some { s with
            status := .available, release_time := none,
            trades_count := s.trades_count + 1 })) := by
  have hne0 : (t0 + C) ≠ 0 := ne_of_gt (by linarith)
  have hrel : listLookup (release_batch t0 p [acc] (some C)).statuses acc
      = some { s with
          status := .cooldown, release_time := some (t0 + C),
          trades_count := s.trades_count + 1 } := by
    simp only [release_batch, Option.getD_some]
    rw [listLookup_mapStatuses, hs]
    simp
  refine ⟨hrel, ?_, ?_⟩
  · intro choose now1 size min_size bal b hsub hlt hb hmem
    have hx := grbb_some_mem hsub hb acc hmem
    have hndrel : NodupKeys (release_batch t0 p [acc] (some C)) := by
      simp only [release_batch, Option.getD_some]
      exact nodupKeys_mapStatuses _ p hnd
    have hnd2 : NodupKeys (update_cooldowns now1 (release_batch t0 p [acc] (some C))) :=
      nodupKeys_mapStatuses _ _ hndrel
    obtain ⟨s2, hls2, hsav⟩ := (mem_availableIds_iff hnd2).mp hx
    have hlt2 : listLookup (update_cooldowns now1
        (release_batch t0 p [acc] (some C))).statuses acc
        = some { s with
            status := .cooldown, release_time := some (t0 + C),
            trades_count := s.trades_count + 1 } := by
      rw [listLookup_update_cooldowns, hrel]
      have hn : ¬ (t0 + C ≤ now1) := not_le.mpr hlt
      simp [tickStatus, hne0, hn]
    rw [hlt2] at hls2
    injection hls2 with h2
    rw [← h2] at hsav
    simp at hsav
  · intro now2 hle
    have h1 : listLookup (update_cooldowns now2
        (release_batch t0 p [acc] (some C))).statuses acc
        = some { s with
            status := .available, release_time := none,
            trades_count := s.trades_count + 1 } := by
      rw [listLookup_update_cooldowns, hrel]
      simp [tickStatus, hne0, hle]
    refine ⟨h1, ?_⟩
    intro now3
    rw [listLookup_update_cooldowns, h1]
    simp [tickStatus]

/-- Witness for C4: a single in-trade account released at t0 = 1 with
cooldown 2 is stamped cooldown until 3 and its counter incremented. -/
theorem C4_witness :
    listLookup (release_batch 1
        (AccountPool.mk 60 [("a", AccountStatus.mk .in_trade none 0 none)])
        ["a"] (some 2)).statuses "a"
      = some (AccountStatus.mk .cooldown (some (1 + 2)) (0 + 1) none) :=
  (C4_cooldown_correctness
    (AccountPool.mk 60 [("a", AccountStatus.mk .in_trade none 0 none)]) "a"
    (AccountStatus.mk .in_trade none 0 none) 1 2 (by decide) (by decide)
    (by norm_num) (by norm_num)).1

/-! ## Disabled accounts (claim C8) -/

/-- C8 (amended): a `disabled` account is never part of any granted batch and
is untouched by selection and by the lazy cooldown expiry; `enable_account`
returns it to `available`.  (The amendment drops `release_batch` and
`release_immediately` from the state-preserving operations: both overwrite a
`disabled` state, as the counterexample shows.) -/
theorem C8_disabled_amended (p : AccountPool) (acc : String) (s : AccountStatus)
    (hnd : NodupKeys p) (hs : listLookup p.statuses acc = some s)
    (hdis : s.status = .disabled) :
    (∀ choose now size min_size bal, SampleSub choose →
      (∀ b, (get_random_batch_balanced choose now p size min_size bal).1 = some b →
        acc ∉ b) ∧
      listLookup (get_random_batch_balanced choose now p size min_size bal).2.statuses acc
        = some s) ∧
    (∀ now, listLookup (update_cooldowns now p).statuses acc = some s) ∧
    (listLookup (enable_account p acc).statuses acc
      = some { s with status := .available, release_time := none }) := by
  have hcd : s.status ≠ .cooldown := by
    rw [hdis]
    intro hc
    cases hc
  have htick : ∀ now, listLookup (update_cooldowns now p).statuses acc = some s := by
    intro now
    rw [listLookup_update_cooldowns, hs]
    simp [tickStatus_of_ne_cooldown hcd]
  have hnotin : ∀ choose now size min_size bal (b : List String), SampleSub choose →
      (get_random_batch_balanced choose now p size min_size bal).1 = some b →
      acc ∉ b := by
    intro choose now size min_size bal b hsub hb hmem
    have hx := grbb_some_mem hsub hb acc hmem
    have hnd1 : NodupKeys (update_cooldowns now p) := nodupKeys_mapStatuses _ p hnd
    obtain ⟨s2, hls2, hsav⟩ := (mem_availableIds_iff hnd1).mp hx
    rw [htick now] at hls2
    injection hls2 with h2
    rw [← h2, hdis] at hsav
    cases hsav
  refine ⟨?_, htick, ?_⟩
  · intro choose now size min_size bal hsub
    refine ⟨fun b => hnotin choose now size min_size bal b hsub, ?_⟩
    rcases grbb_cases choose now p size min_size bal with ⟨_, hc⟩ | ⟨batch, hb, hc⟩
    · rw [hc]
      exact htick now
    · rw [hc, listLookup_markBatch, htick now]
      have hacc : acc ∉ batch := hnotin choose now size min_size bal batch hsub hb
      simp [hacc]
  · rw [enable_account, listLookup_mapStatuses, hs]
    simp

/-- Witness for C8 (amended): enabling a disabled account makes it available
with no release time. -/
theorem C8_witness :
    listLookup (enable_account
        (AccountPool.mk 60 [("a", AccountStatus.mk .disabled none 3 none)]) "a").statuses "a"
      = some (AccountStatus.mk .available none 3 none) :=
  (C8_disabled_amended
    (AccountPool.mk 60 [("a", AccountStatus.mk .disabled none 3 none)]) "a"
    (AccountStatus.mk .disabled none 3 none) (by decide) (by decide) (by decide)).2.2

/-- Counterexample to C8 as stated: `release_immediately` applied to a
disabled account moves it straight to `available` — the disabled state does
not survive every pool operation short of `enable_account`. -/
theorem C8_counterexample :
    listLookup (release_immediately
        (AccountPool.mk 60 [("a", AccountStatus.mk .disabled none 3 none)])
        ["a"]).statuses "a"
      = some (AccountStatus.mk .available none 3 none) := by
  decide

/-! ## Worker release behaviour (claim C7) -/

theorem lookupNat_setKey_other (l : List (String × Nat)) (y : String) (v : Nat)
    {x : String} (hxy : y ≠ x) :
    lookupNat (l.map (fun e => if e.1 = y then (e.1, v) else e)) x = lookupNat l x := by
  induction l with
  | nil => rfl
  | cons e t ih =>
      have hxny : ¬ x = y := fun h => hxy h.symm
      by_cases hey : e.1 = y
      · have hex : ¬ e.1 = x := by
          rw [hey]
          exact hxy
        simp [lookupNat, hey, hex, hxy, hxny, ih]
      · by_cases hex : e.1 = x <;> simp [lookupNat, hey, hex, hxy, hxny, ih]

/-- Unfolding of `report_error` for an unknown account. -/
theorem report_error_eq_none {bp : BalancedPool} {y : String}
    (hk : lookupNat bp.consecutive_errors y = none) : report_error bp y = bp := by
  unfold report_error
  simp only [hk]

/-- Unfolding of `report_error` for a tracked account. -/
theorem report_error_eq_some {bp : BalancedPool} {y : String} {k : Nat}
    (hk : lookupNat bp.consecutive_errors y = some k) :
    report_error bp y =
      if bp.max_consecutive_errors ≤ k + 1 then
        ⟨disable_account bp.base y, bp.max_consecutive_errors,
          bp.consecutive_errors.map (fun e => if e.1 = y then (e.1, k + 1) else e)⟩
      else
        ⟨bp.base, bp.max_consecutive_errors,
          bp.consecutive_errors.map (fun e => if e.1 = y then (e.1, k + 1) else e)⟩ := by
  unfold report_error
  simp only [hk]

theorem report_error_max (bp : BalancedPool) (y : String) :
    (report_error bp y).max_consecutive_errors = bp.max_consecutive_errors := by
  cases hk : lookupNat bp.consecutive_errors y with
  | none => rw [report_error_eq_none hk]
  | some k =>
      rw [report_error_eq_some hk]
      by_cases hth : bp.max_consecutive_errors ≤ k + 1
      · rw [if_pos hth]
      · rw [if_neg hth]

/-- Reporting an error for a different account changes neither `x`'s pool
entry nor `x`'s error counter. -/
theorem report_error_other (bp : BalancedPool) {x y : String} (hxy : y ≠ x) :
    listLookup (report_error bp y).base.statuses x = listLookup bp.base.statuses x ∧
    lookupNat (report_error bp y).consecutive_errors x
      = lookupNat bp.consecutive_errors x := by
  cases hk : lookupNat bp.consecutive_errors y with
  | none =>
      rw [report_error_eq_none hk]
      exact ⟨rfl, rfl⟩
  | some k =>
      rw [report_error_eq_some hk]
      have hbase : listLookup (disable_account bp.base y).statuses x
          = listLookup bp.base.statuses x := by
        rw [disable_account, listLookup_mapStatuses]
        have hxny : ¬ x = y := fun h => hxy h.symm
        cases hl : listLookup bp.base.statuses x <;> simp [hxny]
      by_cases hth : bp.max_consecutive_errors ≤ k + 1
      · rw [if_pos hth]
        exact ⟨hbase, lookupNat_setKey_other _ y (k + 1) hxy⟩
      · rw [if_neg hth]
        exact ⟨rfl, lookupNat_setKey_other _ y (k + 1) hxy⟩

theorem foldl_report_error_not_mem (t : List String) :
    ∀ (bp : BalancedPool) {x : String}, x ∉ t →
      listLookup (t.foldl report_error bp).base.statuses x
        = listLookup bp.base.statuses x := by
  induction t with
  | nil =>
      intro bp x _
      rfl
  | cons a t ih =>
      intro bp x hx
      have hxt : x ∉ t := fun h => hx (List.mem_cons_of_mem a h)
      have hax : a ≠ x := fun h => hx (h ▸ List.mem_cons_self a t)
      rw [List.foldl_cons, ih _ hxt]
      exact (report_error_other bp hax).1

/-- Effect of the per-account error reports of `_process_task`'s `finally` on
one reported account: its counter (as of before the loop) is bumped, and at
the threshold the account is disabled. -/
theorem foldl_report_error_lookup (ids : List String) :
    ∀ (bp : BalancedPool) {x : String}, x ∈ ids → ids.Nodup →
      listLookup (ids.foldl report_error bp).base.statuses x =
        (match lookupNat bp.consecutive_errors x with
         | none => listLookup bp.base.statuses x
         | some k =>
            if bp.max_consecutive_errors ≤ k + 1 then
              (listLookup bp.base.statuses x).map
                (fun s => { s with status := .disabled })
            else listLookup bp.base.statuses x) := by
  induction ids with
  | nil =>
      intro bp x hx
      cases hx
  | cons a t ih =>
      intro bp x hx hnd
      obtain ⟨hat, hndt⟩ := List.nodup_cons.mp hnd
      rcases List.mem_cons.mp hx with rfl | hxt
      · -- head is the reported account; the tail leaves it alone
        rw [List.foldl_cons, foldl_report_error_not_mem t _ hat]
        cases hk : lookupNat bp.consecutive_errors x with
        | none =>
            rw [report_error_eq_none hk]
        | some k =>
            rw [report_error_eq_some hk]
            by_cases hth : bp.max_consecutive_errors ≤ k + 1
            · simp only [if_pos hth]
              rw [disable_account, listLookup_mapStatuses]
              cases hl : listLookup bp.base.statuses x <;> simp
            · simp only [if_neg hth]
      · have hax : a ≠ x := fun h => hat (h ▸ hxt)
        rw [List.foldl_cons, ih (report_error bp a) hxt hndt,
          (report_error_other bp hax).1, (report_error_other bp hax).2,
          report_error_max bp a]

theorem listLookup_release_immediately (p : AccountPool) (ids : List String)
    (x : String) :
    listLookup (release_immediately p ids).statuses x =
      (listLookup p.statuses x).map (fun s =>
        if x ∈ ids then { s with status := .available, release_time := none } else s) :=
  listLookup_mapStatuses _ p x

/-- The account state C7's amendment predicts after a failed task: `available`
unless the balanced pool's error report pushes the account's consecutive-error
counter to the threshold, in which case `disabled`. -/
def expectedFailStatus (isBalanced : Bool) (bp : BalancedPool) (x : String) : AccState :=
  match isBalanced with
  | false => .available
  | true =>
      match lookupNat bp.consecutive_errors x with
      | none => .available
      | some k =>
          if bp.max_consecutive_errors ≤ k + 1 then .disabled else .available

/-- C7 (amended): on cancellation the worker propagates the cancellation and
every known account of the task ends `available` with no cooldown; on any
other exception the worker returns a failed result (the loop keeps running)
and every known account ends with no cooldown and `available` **except**
that, with the balanced pool, an account whose consecutive-error counter
reaches the threshold through the error report is left `disabled` instead. -/
theorem C7_worker_release_amended (bp : BalancedPool) (isBalanced : Bool)
    (ids : List String) (cd now : ℚ) (hnd : ids.Nodup) :
    ((process_task bp isBalanced ids cd now .cancelledDuring).2 = .cancelledProp ∧
      ∀ x ∈ ids, ∀ s, listLookup bp.base.statuses x = some s →
        ∃ s', listLookup (process_task bp isBalanced ids cd now
            .cancelledDuring).1.base.statuses x = some s' ∧
          s'.status = .available ∧ s'.release_time = none) ∧
    (∀ o, o = ExecOutcome.preFail ∨ o = ExecOutcome.tradeFail →
      (process_task bp isBalanced ids cd now o).2 = .ret false ∧
      ∀ x ∈ ids, ∀ s, listLookup bp.base.statuses x = some s →
        ∃ s', listLookup (process_task bp isBalanced ids cd now o).1.base.statuses x
            = some s' ∧
          s'.release_time = none ∧
          s'.status = expectedFailStatus isBalanced bp x) := by
  -- releasing immediately yields an available entry with no release time
  have hrelimm : ∀ (q : AccountPool) (x : String), x ∈ ids →
      ∀ s, listLookup q.statuses x = some s →
      listLookup (release_immediately q ids).statuses x
        = some { s with status := .available, release_time := none } := by
    intro q x hx s hs
    rw [listLookup_release_immediately, hs]
    simp [hx]
  have hrelb : ∀ (x : String), ∀ s, listLookup bp.base.statuses x = some s →
      ∃ s1, listLookup (release_batch now bp.base ids (some cd)).statuses x = some s1 := by
    intro x s hs
    simp only [release_batch, Option.getD_some]
    rw [listLookup_mapStatuses, hs]
    exact ⟨_, rfl⟩
  constructor
  · -- cancellation
    refine ⟨rfl, ?_⟩
    intro x hx s hs
    obtain ⟨s1, hs1⟩ := hrelb x s hs
    exact ⟨_, hrelimm _ x hx s1 hs1, rfl, rfl⟩
  · -- non-cancellation exceptions
    intro o ho
    have hmain : ∀ (q : AccountPool),
        ∀ x ∈ ids, ∀ s, listLookup q.statuses x = some s →
          ∃ s', listLookup
              ((if isBalanced then
                  ids.foldl report_error
                    ⟨release_immediately q ids, bp.max_consecutive_errors,
                      bp.consecutive_errors⟩
                else
                  ⟨release_immediately q ids, bp.max_consecutive_errors,
                    bp.consecutive_errors⟩ : BalancedPool)).base.statuses x = some s' ∧
            s'.release_time = none ∧
            s'.status = expectedFailStatus isBalanced bp x := by
      intro q x hx s hs
      have hsavail := hrelimm q x hx s hs
      cases isBalanced with
      | false =>
          exact ⟨_, hsavail, rfl, rfl⟩
      | true =>
          show ∃ s', listLookup (ids.foldl report_error
              ⟨release_immediately q ids, bp.max_consecutive_errors,
                bp.consecutive_errors⟩).base.statuses x = some s' ∧
            s'.release_time = none ∧ s'.status = expectedFailStatus true bp x
          have hfold := foldl_report_error_lookup ids
            (⟨release_immediately q ids, bp.max_consecutive_errors,
              bp.consecutive_errors⟩ : BalancedPool) hx hnd
          cases hk : lookupNat bp.consecutive_errors x with
          | none =>
              rw [hfold]
              simp only [hk]
              refine ⟨_, hsavail, rfl, ?_⟩
              simp [expectedFailStatus, hk]
          | some k =>
              rw [hfold]
              simp only [hk]
              by_cases hth : bp.max_consecutive_errors ≤ k + 1
              · simp only [if_pos hth]
                rw [hsavail]
                refine ⟨_, rfl, rfl, ?_⟩
                simp [expectedFailStatus, hk, hth]
              · simp only [if_neg hth]
                refine ⟨_, hsavail, rfl, ?_⟩
                simp [expectedFailStatus, hk, hth]
    rcases ho with rfl | rfl
    · exact ⟨rfl, hmain bp.base⟩
    · refine ⟨rfl, ?_⟩
      intro x hx s hs
      obtain ⟨s1, hs1⟩ := hrelb x s hs
      exact hmain (release_batch now bp.base ids (some cd)) x hx s1 hs1

/-- Witness for C7 (amended): a failing two-account task returns a failed
result instead of raising. -/
theorem C7_witness :
    (process_task
        (BalancedPool.mk
          (AccountPool.mk 60 [("a", AccountStatus.mk .in_trade none 0 none),
            ("b", AccountStatus.mk .in_trade none 0 none)])
          2 [("a", 0), ("b", 1)])
        true ["a", "b"] 60 0 ExecOutcome.tradeFail).2 = PTResult.ret false :=
  ((C7_worker_release_amended
      (BalancedPool.mk
        (AccountPool.mk 60 [("a", AccountStatus.mk .in_trade none 0 none),
          ("b", AccountStatus.mk .in_trade none 0 none)])
        2 [("a", 0), ("b", 1)])
      true ["a", "b"] 60 0 (by decide)).2 ExecOutcome.tradeFail (Or.inr rfl)).1

/-- Counterexample to C7 as stated: with the balanced pool at an error
threshold of 1, a failed single-account task leaves the account `disabled`
(the error report in the worker's `finally` fires after the immediate
release), not `available` as the claim requires. -/
theorem C7_counterexample :
    ((process_task
        (BalancedPool.mk (AccountPool.mk 60 [("a", AccountStatus.mk .in_trade none 0 none)])
          1 [("a", 0)])
        true ["a"] 60 0 ExecOutcome.tradeFail).2 = PTResult.ret false) ∧
    (listLookup (process_task
        (BalancedPool.mk (AccountPool.mk 60 [("a", AccountStatus.mk .in_trade none 0 none)])
          1 [("a", 0)])
        true ["a"] 60 0 ExecOutcome.tradeFail).1.base.statuses "a"
      = some (AccountStatus.mk .disabled none 1 none)) := by
  exact ⟨by decide, by decide⟩

end TradingBot
